import Mathlib

/-!
Shallow embedding of `src/examples/chandy_misra.rs` (Chandy–Misra dining
philosophers).  Rust structs become Lean structures; the `BTreeMap` of fork
storages becomes an association list kept sorted by key; operations that can
panic in Rust (`BTreeMap` indexing, `Option::unwrap`, the `assert!` in
`setup_fork`) return `Option`, with `none` standing for a panic.  Message
sends are recorded as `(destination, message)` pairs; `println!` output is
recorded as a list of strings built with the exact format strings of the
source.
-/

/-- Freshness state of a fork (`enum ForkState`). -/
inductive ForkState where
  | Dirty
  | Clean
deriving DecidableEq, Repr

/-- A fork token (`struct Fork`): identity plus freshness state. -/
structure Fork where
  id : Nat
  state : ForkState
deriving DecidableEq, Repr

/-- Rust `Fork::new_dirty`. -/
def Fork.new_dirty (id : Nat) : Fork :=
  { id := id, state := ForkState.Dirty }

/-- Rust `Fork::is_dirty`. -/
def Fork.is_dirty (f : Fork) : Bool :=
  f.state = ForkState.Dirty

/-- Rust `Fork::clean` (state becomes Clean). -/
def Fork.clean (f : Fork) : Fork :=
  { f with state := ForkState.Clean }

/-- Rust `Fork::dirty` (state becomes Dirty). -/
def Fork.dirty (f : Fork) : Fork :=
  { f with state := ForkState.Dirty }

/-- Rust `struct ForkStorage`: the per-neighbour slot, holding an optional fork
and the `requested` flag (`Cell<bool>` in the source). -/
structure ForkStorage where
  requested : Bool
  fork : Option Fork
deriving DecidableEq, Repr

/-- Rust `ForkStorage::new`: fresh storage, `requested` initialised to `false`. -/
def ForkStorage.new (fork : Option Fork) : ForkStorage :=
  { requested := false, fork := fork }

/-- Rust `ForkStorage::is_some`. -/
def ForkStorage.is_some (st : ForkStorage) : Bool :=
  st.fork.isSome

/-- Rust `ForkStorage::is_dirty`: `self.fork.as_ref().map_or(false, |f| f.is_dirty())`. -/
def ForkStorage.is_dirty (st : ForkStorage) : Bool :=
  (st.fork.map Fork.is_dirty).getD false

/-- Rust `ForkStorage::needs_requesting`: slot empty and no request outstanding. -/
def ForkStorage.needs_requesting (st : ForkStorage) : Bool :=
  st.fork.isNone && !st.requested

/-- Rust `ForkStorage::requested()` (the `Cell::set(true)` call). -/
def ForkStorage.set_requested (st : ForkStorage) : ForkStorage :=
  { st with requested := true }

/-- The `BTreeMap<usize, ForkStorage>` of a philosopher, as an association
list; `BTreeMap` keeps entries sorted by key in ascending order. -/
abbrev Forks := List (Nat × ForkStorage)

/-- Rust `BTreeMap` key lookup. -/
def lookupFork : Forks → Nat → Option ForkStorage
  | [], _ => none
  | (k, st) :: rest, fid => if k = fid then some st else lookupFork rest fid

/-- In-place mutation of the storage under an existing key
(`forks.get_mut(&k)` followed by a mutation); identity when the key is
absent. -/
def updateFork : Forks → Nat → ForkStorage → Forks
  | [], _, _ => []
  | (k, st') :: rest, fid, st =>
      if k = fid then (k, st) :: rest else (k, st') :: updateFork rest fid st

/-- Rust `BTreeMap::insert`: replaces the value of an existing key, otherwise
inserts at the sorted position. -/
def insertFork : Forks → Nat → ForkStorage → Forks
  | [], k, st => [(k, st)]
  | (k', st') :: rest, k, st =>
      if k < k' then (k, st) :: (k', st') :: rest
      else if k = k' then (k, st) :: rest
      else (k', st') :: insertFork rest k st

/-- Keys of the fork map appear in strictly ascending order (the `BTreeMap`
representation invariant). -/
def sortedKeys : Forks → Bool
  | [] => true
  | [_] => true
  | (k1, _) :: (k2, st) :: rest => decide (k1 < k2) && sortedKeys ((k2, st) :: rest)

/-- Rust `enum ForkMessage`. -/
inductive ForkMessage where
  | Request (who : Nat) (fork_id : Nat)
  | Delivery (fork : Fork)
deriving DecidableEq, Repr

/-- Rust `struct Philosopher`.  `neighbours` keeps only the key set of the
`HashMap<usize, Sender>` (the channels themselves are modelled by recording
sends as `(destination, message)` pairs). -/
structure Philosopher where
  id : Nat
  name : String
  neighbours : List Nat
  forks : Forks
  request_queue : List (Nat × Nat)
deriving DecidableEq, Repr

/-- Rust `Philosopher::new`. -/
def Philosopher.new (id : Nat) (name : String) : Philosopher :=
  { id := id, name := name, neighbours := [], forks := [], request_queue := [] }

/-- Rust `Philosopher::setup_sender`: record a neighbour's id (`HashMap::insert`
keyed by the id; re-inserting an existing key changes nothing we model). -/
def Philosopher.setup_sender (p : Philosopher) (phil_id : Nat) : Philosopher :=
  if phil_id ∈ p.neighbours then p
  else { p with neighbours := p.neighbours ++ [phil_id] }

/-- Rust `Philosopher::setup_fork`: `assert!(self.forks.len() <= 2)` then
`forks.insert(neighbour, ForkStorage::new(fork))`.  `none` models the
panic of a failed assertion.  Note the assertion is checked before the
insertion, on the current length. -/
def Philosopher.setup_fork (p : Philosopher) (neighbour : Nat) (fork : Option Fork) :
    Option Philosopher :=
  if p.forks.length ≤ 2 then
    some { p with forks := insertFork p.forks neighbour (ForkStorage.new fork) }
  else none

/-- Rust `Philosopher::neighbour_left`: for id 0 the maximum neighbour key,
otherwise `id - 1`; `none` models the `unwrap` panic on an empty map. -/
def Philosopher.neighbour_left (p : Philosopher) : Option Nat :=
  if p.id = 0 then p.neighbours.max? else some (p.id - 1)

/-- Rust `Philosopher::neighbour_right`: the first neighbour key different from
`neighbour_left()`. -/
def Philosopher.neighbour_right (p : Philosopher) : Option Nat := do
  let l ← p.neighbour_left
  p.neighbours.find? (fun x => x ≠ l)

/-- Rust `Debug` of a `ForkStorage` (the custom `fmt` impl). -/
def debugForkStorage (st : ForkStorage) : String :=
  let req := if st.requested then "requested" else "not-req"
  match st.fork with
  | some fk =>
      let s := match fk.state with
        | ForkState.Dirty => "dirty"
        | ForkState.Clean => "clean"
      "Fork " ++ toString fk.id ++ " " ++ s ++ " " ++ req
  | none => "Fork None " ++ req

/-- Rust `Debug` of the `BTreeMap<usize, ForkStorage>`. -/
def debugForks (f : Forks) : String :=
  "\x7b" ++ String.intercalate ", "
    (f.map (fun e => toString e.1 ++ ": " ++ debugForkStorage e.2)) ++ "\x7d"

/-- Both slots hold a fork: `self.forks.iter().all(|(_, f)| f.is_some())`. -/
def canEat (f : Forks) : Bool :=
  f.all (fun e => e.2.is_some)

/-- Mark every held fork dirty (`for (_pid, fork) in self.forks.iter_mut()
\x7b fork.dirty(); \x7d`); the `unwrap` inside `ForkStorage::dirty` panics
(`none`) when a slot is empty. -/
def dirtyAllForks : Forks → Option Forks
  | [] => some []
  | (k, st) :: rest =>
      match st.fork with
      | none => none
      | some fk =>
          (dirtyAllForks rest).map
            (fun r => (k, { st with fork := some fk.dirty }) :: r)

/-- The post-eating drain loop: `while let Some((who, fork_id)) =
self.request_queue.pop_front()`.  For a dequeued pair whose slot holds a
dirty fork, the fork is taken, cleaned and sent to `who`; otherwise the
pair is dropped.  `none` models the panics of `self.forks[&fork_id]` on a
missing key and of `self.neighbours[&who]` on an unknown destination. -/
def drainQueue (nbrs : List Nat) (f : Forks) :
    List (Nat × Nat) → Option (Forks × List (Nat × ForkMessage))
  | [] => some (f, [])
  | (who, fid) :: rest =>
      match lookupFork f fid with
      | none => none
      | some st =>
          if st.is_dirty then
            match st.fork with
            | none => none
            | some fk =>
                if who ∈ nbrs then
                  (drainQueue nbrs (updateFork f fid { st with fork := none }) rest).map
                    (fun r => (r.1, (who, ForkMessage.Delivery fk.clean) :: r.2))
                else none
          else drainQueue nbrs f rest

/-- Rust `Philosopher::eat`.  Returns the successor state, the list of sent
`(destination, message)` pairs, and the list of printed lines; `none`
models a panic. -/
def Philosopher.eat (p : Philosopher) :
    Option (Philosopher × List (Nat × ForkMessage) × List String) :=
  if canEat p.forks then do
    let line1 := toString p.id ++ " " ++ p.name ++ " is eating. " ++ debugForks p.forks
    let f' ← dirtyAllForks p.forks
    let line2 := toString p.id ++ " " ++ p.name ++ " is done eating. " ++ debugForks f'
    let r ← drainQueue p.neighbours f' p.request_queue
    some ({ p with forks := r.1, request_queue := [] }, r.2, [line1, line2])
  else
    match p.forks.find? (fun e => e.2.needs_requesting) with
    | none => some (p, [], [])
    | some (fid, st) => do
        let pid ← if fid = p.id then p.neighbour_left else p.neighbour_right
        if pid ∈ p.neighbours then
          some ({ p with forks := updateFork p.forks fid st.set_requested },
                [(pid, ForkMessage.Request p.id fid)], [])
        else none

/-- Rust `Philosopher::handle_requests`, applied to one received message.
Returns the successor state and the sent messages; `none` models the
panics of `self.forks[&fork_id]` and `self.neighbours[&by]` on missing
keys. -/
def Philosopher.handle_requests (p : Philosopher) (msg : ForkMessage) :
    Option (Philosopher × List (Nat × ForkMessage)) :=
  match msg with
  | ForkMessage.Request who fid =>
      match lookupFork p.forks fid with
      | none => none
      | some st =>
          if st.is_dirty then
            match st.fork with
            | none => none
            | some fk =>
                if who ∈ p.neighbours then
                  some ({ p with forks := updateFork p.forks fid ({ st with fork := none }) },
                        [(who, ForkMessage.Delivery fk.clean)])
                else none
          else
            if (who, fid) ∈ p.request_queue then some (p, [])
            else some ({ p with request_queue := p.request_queue ++ [(who, fid)] }, [])
  | ForkMessage.Delivery fk =>
      some ({ p with forks := insertFork p.forks fk.id (ForkStorage.new (some fk)) }, [])

/-- Apply a fallible update to the i-th philosopher of the vector
(`phils[i].method(...)` in `main`); `none` propagates a panic or an
out-of-bounds index. -/
def modifyAt (phils : List Philosopher) (i : Nat)
    (f : Philosopher → Option Philosopher) : Option (List Philosopher) :=
  match phils, i with
  | [], _ => none
  | p :: rest, 0 => (f p).map (fun q => q :: rest)
  | p :: rest, n + 1 => (modifyAt rest n f).map (fun r => p :: r)

/-- One iteration of the wiring loop in `main` for sender index `i`:
register the sender with both neighbours, give philosopher `i` its two
empty slots, and place the dirty fork `i` with the lower-numbered of
`i` and its left neighbour. -/
def setupStep (phil_max_idx : Nat) (phils : List Philosopher) (i : Nat) :
    Option (List Philosopher) := do
  let neighbour_left := if i = 0 then phil_max_idx else i - 1
  let neighbour_right := if i = phil_max_idx then 0 else i + 1
  let phils ← modifyAt phils neighbour_left (fun p => some (p.setup_sender i))
  let phils ← modifyAt phils neighbour_right (fun p => some (p.setup_sender i))
  let gets_fork := min neighbour_left i
  let phils ← modifyAt phils i (fun p => p.setup_fork i none)
  let phils ← modifyAt phils i (fun p => p.setup_fork neighbour_right none)
  modifyAt phils gets_fork (fun p => p.setup_fork i (some (Fork.new_dirty i)))

/-- The whole setup phase of `main` for a given list of names: create the
philosophers, then run the wiring loop over all indices. -/
def mainSetup (names : List String) : Option (List Philosopher) :=
  let phils := (names.enum.map (fun e => Philosopher.new e.1 e.2))
  (List.range names.length).foldlM (setupStep (names.length - 1)) phils

/-- The hard-coded name list of `main`. -/
def mainNames : List String :=
  ["Baruch Spinoza", "Gilles Deleuze", "Karl Marx",
   "Friedrich Nietzsche", "Michael Foucault"]

/-- Every `Delivery` message in a send list carries a clean fork. -/
def deliveriesClean (sends : List (Nat × ForkMessage)) : Bool :=
  sends.all (fun s =>
    match s.2 with
    | ForkMessage.Delivery fk => fk.state = ForkState.Clean
    | ForkMessage.Request _ _ => true)

/-- Every slot of the map holds a dirty fork. -/
def allDirty (f : Forks) : Bool :=
  f.all (fun e =>
    match e.2.fork with
    | some fk => fk.state = ForkState.Dirty
    | none => false)

/-- No slot simultaneously holds a fork and has its request flag set. -/
def slotsOk (f : Forks) : Bool :=
  f.all (fun e => !(e.2.fork.isSome && e.2.requested))

lemma lookupFork_insertFork_self (f : Forks) (k : Nat) (st : ForkStorage) :
    lookupFork (insertFork f k st) k = some st := by
  induction f with
  | nil => simp [insertFork, lookupFork]
  | cons e rest ih =>
      obtain ⟨k', st'⟩ := e
      by_cases h1 : k < k'
      · simp [insertFork, h1, lookupFork]
      · by_cases h2 : k = k'
        · simp [insertFork, h1, h2, lookupFork]
        · have h3 : ¬ k' = k := fun hh => h2 hh.symm
          simp [insertFork, h1, h2, lookupFork, h3, ih]

lemma lookupFork_updateFork_ne (f : Forks) (fid k : Nat) (st : ForkStorage)
    (h : k ≠ fid) : lookupFork (updateFork f fid st) k = lookupFork f k := by
  induction f with
  | nil => simp [updateFork]
  | cons e rest ih =>
      obtain ⟨k', st'⟩ := e
      by_cases h1 : k' = fid
      · subst h1
        have h2 : ¬ k' = k := fun hh => h (hh.symm)
        simp [updateFork, lookupFork, h2]
      · simp [updateFork, lookupFork, h1, ih]

lemma all_updateFork (Q : ForkStorage → Bool) (f : Forks) (fid : Nat) (st : ForkStorage)
    (hf : f.all (fun e => Q e.2) = true) (hst : Q st = true) :
    (updateFork f fid st).all (fun e => Q e.2) = true := by
  induction f with
  | nil => simp [updateFork]
  | cons e rest ih =>
      obtain ⟨k', st'⟩ := e
      simp only [List.all_cons, Bool.and_eq_true] at hf
      by_cases h1 : k' = fid
      · simp [updateFork, h1, hst, hf.2]
      · simp [updateFork, h1, hf.1, ih hf.2]

lemma all_insertFork (Q : ForkStorage → Bool) (f : Forks) (k : Nat) (st : ForkStorage)
    (hf : f.all (fun e => Q e.2) = true) (hst : Q st = true) :
    (insertFork f k st).all (fun e => Q e.2) = true := by
  induction f with
  | nil => simp [insertFork, hst]
  | cons e rest ih =>
      obtain ⟨k', st'⟩ := e
      simp only [List.all_cons, Bool.and_eq_true] at hf
      by_cases h1 : k < k'
      · simp [insertFork, h1, hst, hf.1, hf.2]
      · by_cases h2 : k = k'
        · simp [insertFork, h1, h2, hst, hf.2]
        · simp [insertFork, h1, h2, hf.1, ih hf.2]

lemma drainQueue_clean (nbrs : List Nat) (q : List (Nat × Nat)) :
    ∀ (f : Forks) (r : Forks × List (Nat × ForkMessage)),
      drainQueue nbrs f q = some r → deliveriesClean r.2 = true := by
  induction q with
  | nil =>
      intro f r h
      simp only [drainQueue, Option.some.injEq] at h
      subst h
      simp [deliveriesClean]
  | cons e rest ih =>
      intro f r h
      obtain ⟨who, fid⟩ := e
      simp only [drainQueue] at h
      cases hl : lookupFork f fid with
      | none => simp [hl] at h
      | some st =>
          simp only [hl] at h
          by_cases hd : st.is_dirty
          · simp only [hd, if_true] at h
            cases hfk : st.fork with
            | none => simp [hfk] at h
            | some fk =>
                simp only [hfk] at h
                by_cases hw : who ∈ nbrs
                · simp only [hw, if_true] at h
                  cases hrec : drainQueue nbrs (updateFork f fid { st with fork := none }) rest with
                  | none => simp [hrec] at h
                  | some r' =>
                      simp only [hrec, Option.map_some', Option.some.injEq] at h
                      subst h
                      have h2 := ih _ _ hrec
                      simp only [deliveriesClean] at h2 ⊢
                      simp only [List.all_cons, Bool.and_eq_true]
                      refine ⟨by simp [Fork.clean], h2⟩
                · simp [hw] at h
          · simp only [hd, if_false] at h
            exact ih _ _ h

lemma drainQueue_slotsOk (nbrs : List Nat) (q : List (Nat × Nat)) :
    ∀ (f : Forks) (r : Forks × List (Nat × ForkMessage)),
      slotsOk f = true → drainQueue nbrs f q = some r → slotsOk r.1 = true := by
  induction q with
  | nil =>
      intro f r hok h
      simp only [drainQueue, Option.some.injEq] at h
      subst h
      exact hok
  | cons e rest ih =>
      intro f r hok h
      obtain ⟨who, fid⟩ := e
      simp only [drainQueue] at h
      cases hl : lookupFork f fid with
      | none => simp [hl] at h
      | some st =>
          simp only [hl] at h
          by_cases hd : st.is_dirty
          · simp only [hd, if_true] at h
            cases hfk : st.fork with
            | none => simp [hfk] at h
            | some fk =>
                simp only [hfk] at h
                by_cases hw : who ∈ nbrs
                · simp only [hw, if_true] at h
                  cases hrec : drainQueue nbrs (updateFork f fid { st with fork := none }) rest with
                  | none => simp [hrec] at h
                  | some r' =>
                      simp only [hrec, Option.map_some', Option.some.injEq] at h
                      subst h
                      have hok2 : slotsOk (updateFork f fid { st with fork := none }) = true := by
                        simp only [slotsOk] at hok ⊢
                        exact all_updateFork (fun s => !(s.fork.isSome && s.requested))
                          f fid _ hok (by simp)
                      exact ih _ r' hok2 hrec
                · simp [hw] at h
          · simp only [hd, if_false] at h
            exact ih _ _ hok h

lemma dirtyAll_allDirty :
    ∀ (f f' : Forks), dirtyAllForks f = some f' → allDirty f' = true := by
  intro f
  induction f with
  | nil =>
      intro f' h
      simp only [dirtyAllForks, Option.some.injEq] at h
      subst h
      simp [allDirty]
  | cons e rest ih =>
      intro f' h
      obtain ⟨k, st⟩ := e
      simp only [dirtyAllForks] at h
      cases hfk : st.fork with
      | none => simp [hfk] at h
      | some fk =>
          simp only [hfk] at h
          cases hrec : dirtyAllForks rest with
          | none => simp [hrec] at h
          | some r =>
              simp only [hrec, Option.map_some', Option.some.injEq] at h
              subst h
              have h2 := ih _ hrec
              simp only [allDirty] at h2 ⊢
              simp only [List.all_cons, Bool.and_eq_true]
              refine ⟨by simp [Fork.dirty], h2⟩

lemma dirtyAll_slotsOk :
    ∀ (f f' : Forks), slotsOk f = true → dirtyAllForks f = some f' → slotsOk f' = true := by
  intro f
  induction f with
  | nil =>
      intro f' _ h
      simp only [dirtyAllForks, Option.some.injEq] at h
      subst h
      simp [slotsOk]
  | cons e rest ih =>
      intro f' hok h
      obtain ⟨k, st⟩ := e
      simp only [dirtyAllForks] at h
      cases hfk : st.fork with
      | none => simp [hfk] at h
      | some fk =>
          simp only [hfk] at h
          cases hrec : dirtyAllForks rest with
          | none => simp [hrec] at h
          | some r =>
              simp only [hrec, Option.map_some', Option.some.injEq] at h
              subst h
              simp only [slotsOk, List.all_cons, Bool.and_eq_true] at hok
              have hreq : st.requested = false := by
                have h1 := hok.1
                simp [hfk] at h1
                exact h1
              have h2 := ih _ hok.2 hrec
              simp only [slotsOk] at h2 ⊢
              simp only [List.all_cons, Bool.and_eq_true]
              refine ⟨by simp [hreq], h2⟩

/-- Concrete philosopher state used by witnesses: philosopher 0 holding a
dirty fork 0 and a clean fork 1, with one deferred request. -/
def wPhil : Philosopher :=
  { id := 0, name := "Baruch Spinoza", neighbours := [1, 4],
    forks := [(0, { requested := false, fork := some { id := 0, state := ForkState.Dirty } }),
              (1, { requested := false, fork := some { id := 1, state := ForkState.Clean } })],
    request_queue := [(4, 0)] }

/-- Concrete philosopher state used by witnesses: philosopher 4 with both
slots empty. -/
def wPhil4 : Philosopher :=
  { id := 4, name := "Michael Foucault", neighbours := [0, 3],
    forks := [(0, { requested := true, fork := none }),
              (4, { requested := false, fork := none })],
    request_queue := [(3, 0)] }

/-- C1: on an incoming `Request` for token `fid` from requester `who`, if
the slot's fork is dirty the philosopher removes it from the slot, marks
it clean and sends it to `who`; if the fork is clean the philosopher keeps
its forks unchanged and appends `(who, fid)` to the back of the deferred
queue, and this enqueue adds no entry when the pair is already queued. -/
theorem c1_request_handling (p : Philosopher) (who fid : Nat) (st : ForkStorage) (fk : Fork)
    (hl : lookupFork p.forks fid = some st) :
    (st.fork = some fk → fk.state = ForkState.Dirty → who ∈ p.neighbours →
       p.handle_requests (ForkMessage.Request who fid) =
         some ({ p with forks := updateFork p.forks fid ({ st with fork := none }) },
               [(who, ForkMessage.Delivery fk.clean)])) ∧
    (st.fork = some fk → fk.state = ForkState.Clean →
       p.handle_requests (ForkMessage.Request who fid) =
         some ({ p with request_queue :=
                   if (who, fid) ∈ p.request_queue then p.request_queue
                   else p.request_queue ++ [(who, fid)] }, [])) ∧
    (st.is_dirty = false → (who, fid) ∈ p.request_queue →
       p.handle_requests (ForkMessage.Request who fid) = some (p, [])) := by
  refine ⟨?_, ?_, ?_⟩
  · intro hfk hdirty hmem
    have hd : st.is_dirty = true := by
      simp [ForkStorage.is_dirty, hfk, Fork.is_dirty, hdirty]
    simp [Philosopher.handle_requests, hl, hd, hfk, hmem]
  · intro hfk hclean
    have hd : st.is_dirty = false := by
      simp [ForkStorage.is_dirty, hfk, Fork.is_dirty, hclean]
    by_cases hq : (who, fid) ∈ p.request_queue
    · simp [Philosopher.handle_requests, hl, hd, hq]
    · simp [Philosopher.handle_requests, hl, hd, hq]
  · intro hd hq
    simp [Philosopher.handle_requests, hl, hd, hq]

/-- Witness for C1 (dirty branch) at a concrete state. -/
theorem c1_request_handling_witness :
    wPhil.handle_requests (ForkMessage.Request 4 0) =
      some ({ wPhil with forks := updateFork wPhil.forks 0 ({ requested := false, fork := none }) },
            [(4, ForkMessage.Delivery (Fork.clean ({ id := 0, state := ForkState.Dirty })))]) :=
  (c1_request_handling wPhil 4 0
      { requested := false, fork := some { id := 0, state := ForkState.Dirty } }
      { id := 0, state := ForkState.Dirty } (by decide)).1 (by decide) (by decide) (by decide)

/-- C9: handling a `Delivery` of fork `fk` replaces the slot keyed by
`fk.id` with a freshly constructed storage holding the fork with the
request flag reset, so after a delivery the slot is present and not
requested; once the fork is taken away again the slot needs requesting. -/
theorem c9_delivery_resets_slot (p : Philosopher) (fk : Fork) :
    p.handle_requests (ForkMessage.Delivery fk) =
      some ({ p with forks := insertFork p.forks fk.id (ForkStorage.new (some fk)) }, []) ∧
    lookupFork (insertFork p.forks fk.id (ForkStorage.new (some fk))) fk.id =
      some { requested := false, fork := some fk } ∧
    (ForkStorage.new (some fk)).is_some = true ∧
    (ForkStorage.new (some fk)).requested = false ∧
    ForkStorage.needs_requesting ({ requested := false, fork := none }) = true := by
  refine ⟨rfl, ?_, rfl, rfl, rfl⟩
  rw [lookupFork_insertFork_self]
  rfl

/-- C10: a `Request` for a token id whose slot is currently empty behaves
exactly like a request for a clean token: the dirtiness test is false on
an empty slot, the pair is enqueued subject to the duplicate check, and
no panic occurs (the result is `some`). -/
theorem c10_request_empty_slot (p : Philosopher) (who fid : Nat) (st : ForkStorage)
    (hl : lookupFork p.forks fid = some st) (he : st.fork = none) :
    st.is_dirty = false ∧
    p.handle_requests (ForkMessage.Request who fid) =
      some ({ p with request_queue :=
                if (who, fid) ∈ p.request_queue then p.request_queue
                else p.request_queue ++ [(who, fid)] }, []) := by
  have hd : st.is_dirty = false := by
    simp [ForkStorage.is_dirty, he]
  refine ⟨hd, ?_⟩
  by_cases hq : (who, fid) ∈ p.request_queue
  · simp [Philosopher.handle_requests, hl, hd, hq]
  · simp [Philosopher.handle_requests, hl, hd, hq]

/-- Witness for C10 at a concrete state with an empty requested slot. -/
theorem c10_request_empty_slot_witness :
    ({ requested := true, fork := none } : ForkStorage).is_dirty = false ∧
    wPhil4.handle_requests (ForkMessage.Request 0 0) =
      some ({ wPhil4 with request_queue :=
                if ((0 : Nat), (0 : Nat)) ∈ wPhil4.request_queue then wPhil4.request_queue
                else wPhil4.request_queue ++ [(0, 0)] }, []) :=
  c10_request_empty_slot wPhil4 0 0 { requested := true, fork := none }
    (by decide) (by decide)

lemma eat_canEat_inv (p : Philosopher)
    (out : Philosopher × List (Nat × ForkMessage) × List String)
    (hc : canEat p.forks = true) (h : p.eat = some out) :
    ∃ f' r, dirtyAllForks p.forks = some f' ∧
      drainQueue p.neighbours f' p.request_queue = some r ∧
      out = ({ p with forks := r.1, request_queue := [] }, r.2,
             [toString p.id ++ " " ++ p.name ++ " is eating. " ++ debugForks p.forks,
              toString p.id ++ " " ++ p.name ++ " is done eating. " ++ debugForks f']) := by
  simp only [Philosopher.eat, hc, if_true] at h
  cases hd : dirtyAllForks p.forks with
  | none => simp [hd] at h
  | some f' =>
      simp only [hd, Option.bind_eq_bind, Option.some_bind] at h
      cases hr : drainQueue p.neighbours f' p.request_queue with
      | none => simp [hr] at h
      | some r =>
          simp only [hr, Option.bind_eq_bind, Option.some_bind, Option.some.injEq] at h
          exact ⟨f', r, rfl, hr, h.symm⟩

lemma eat_hungry_inv (p : Philosopher)
    (out : Philosopher × List (Nat × ForkMessage) × List String)
    (hc : canEat p.forks = false) (h : p.eat = some out) :
    (p.forks.find? (fun e => e.2.needs_requesting) = none ∧ out = (p, [], [])) ∨
    (∃ fid st pid, p.forks.find? (fun e => e.2.needs_requesting) = some (fid, st) ∧
       (if fid = p.id then p.neighbour_left else p.neighbour_right) = some pid ∧
       pid ∈ p.neighbours ∧
       out = ({ p with forks := updateFork p.forks fid st.set_requested },
              [(pid, ForkMessage.Request p.id fid)], [])) := by
  simp only [Philosopher.eat, hc, Bool.false_eq_true, if_false] at h
  cases hf : p.forks.find? (fun e => e.2.needs_requesting) with
  | none =>
      simp only [hf, Option.some.injEq] at h
      exact Or.inl ⟨rfl, h.symm⟩
  | some e =>
      obtain ⟨fid, st⟩ := e
      simp only [hf] at h
      by_cases hid : fid = p.id
      · simp only [hid, if_true] at h
        cases hnl : p.neighbour_left with
        | none => simp [hnl] at h
        | some pid =>
            simp only [hnl, Option.bind_eq_bind, Option.some_bind] at h
            by_cases hm : pid ∈ p.neighbours
            · simp only [hm, if_true, Option.some.injEq] at h
              refine Or.inr ⟨fid, st, pid, rfl, ?_, hm, ?_⟩
              · simp [hid, hnl]
              · rw [← h, hid]
            · simp [hm] at h
      · simp only [hid, if_false] at h
        cases hnr : p.neighbour_right with
        | none => simp [hnr] at h
        | some pid =>
            simp only [hnr, Option.bind_eq_bind, Option.some_bind] at h
            by_cases hm : pid ∈ p.neighbours
            · simp only [hm, if_true, Option.some.injEq] at h
              refine Or.inr ⟨fid, st, pid, rfl, ?_, hm, ?_⟩
              · simp [hid, hnr]
              · rw [← h]
            · simp [hm] at h

lemma handle_requests_clean (p : Philosopher) (msg : ForkMessage)
    (out : Philosopher × List (Nat × ForkMessage))
    (h : p.handle_requests msg = some out) : deliveriesClean out.2 = true := by
  cases msg with
  | Delivery fk =>
      simp only [Philosopher.handle_requests, Option.some.injEq] at h
      rw [← h]
      simp [deliveriesClean]
  | Request who fid =>
      simp only [Philosopher.handle_requests] at h
      cases hl : lookupFork p.forks fid with
      | none => simp [hl] at h
      | some st =>
          simp only [hl] at h
          by_cases hd : st.is_dirty
          · simp only [hd, if_true] at h
            cases hfk : st.fork with
            | none => simp [hfk] at h
            | some fk =>
                simp only [hfk] at h
                by_cases hw : who ∈ p.neighbours
                · simp only [hw, if_true, Option.some.injEq] at h
                  rw [← h]
                  simp [deliveriesClean, Fork.clean]
                · simp [hw] at h
          · rw [if_neg hd] at h
            by_cases hq : (who, fid) ∈ p.request_queue
            · simp only [hq, if_true, Option.some.injEq] at h
              rw [← h]
              simp [deliveriesClean]
            · simp only [hq, if_false, Option.some.injEq] at h
              rw [← h]
              simp [deliveriesClean]

lemma eat_clean (p : Philosopher)
    (out : Philosopher × List (Nat × ForkMessage) × List String)
    (h : p.eat = some out) : deliveriesClean out.2.1 = true := by
  by_cases hc : canEat p.forks
  · obtain ⟨f', r, _, hr, hout⟩ := eat_canEat_inv p out hc h
    rw [hout]
    exact drainQueue_clean p.neighbours p.request_queue f' r hr
  · rcases eat_hungry_inv p out (Bool.not_eq_true _ ▸ Bool.of_not_eq_true hc) h with
      ⟨_, hout⟩ | ⟨fid, st, pid, _, _, _, hout⟩
    · rw [hout]
      simp [deliveriesClean]
    · rw [hout]
      simp [deliveriesClean]

lemma handle_requests_slotsOk (p : Philosopher) (msg : ForkMessage)
    (out : Philosopher × List (Nat × ForkMessage))
    (hok : slotsOk p.forks = true)
    (h : p.handle_requests msg = some out) : slotsOk out.1.forks = true := by
  cases msg with
  | Delivery fk =>
      simp only [Philosopher.handle_requests, Option.some.injEq] at h
      rw [← h]
      simp only [slotsOk] at hok ⊢
      exact all_insertFork (fun s => !(s.fork.isSome && s.requested))
        p.forks fk.id _ hok (by simp [ForkStorage.new])
  | Request who fid =>
      simp only [Philosopher.handle_requests] at h
      cases hl : lookupFork p.forks fid with
      | none => simp [hl] at h
      | some st =>
          simp only [hl] at h
          by_cases hd : st.is_dirty
          · simp only [hd, if_true] at h
            cases hfk : st.fork with
            | none => simp [hfk] at h
            | some fk =>
                simp only [hfk] at h
                by_cases hw : who ∈ p.neighbours
                · simp only [hw, if_true, Option.some.injEq] at h
                  rw [← h]
                  simp only [slotsOk] at hok ⊢
                  exact all_updateFork (fun s => !(s.fork.isSome && s.requested))
                    p.forks fid _ hok (by simp)
                · simp [hw] at h
          · rw [if_neg hd] at h
            by_cases hq : (who, fid) ∈ p.request_queue
            · simp only [hq, if_true, Option.some.injEq] at h
              rw [← h]
              exact hok
            · simp only [hq, if_false, Option.some.injEq] at h
              rw [← h]
              exact hok

lemma eat_slotsOk (p : Philosopher)
    (out : Philosopher × List (Nat × ForkMessage) × List String)
    (hok : slotsOk p.forks = true)
    (h : p.eat = some out) : slotsOk out.1.forks = true := by
  by_cases hc : canEat p.forks
  · obtain ⟨f', r, hd, hr, hout⟩ := eat_canEat_inv p out hc h
    rw [hout]
    exact drainQueue_slotsOk p.neighbours p.request_queue f' r
      (dirtyAll_slotsOk p.forks f' hok hd) hr
  · rcases eat_hungry_inv p out (Bool.not_eq_true _ ▸ Bool.of_not_eq_true hc) h with
      ⟨_, hout⟩ | ⟨fid, st, pid, hf, _, _, hout⟩
    · rw [hout]
      exact hok
    · rw [hout]
      have hneed : st.needs_requesting = true := by
        have := List.find?_some hf
        simpa using this
      have hnone : st.fork = none := by
        simp only [ForkStorage.needs_requesting, Bool.and_eq_true, Option.isNone_iff_eq_none] at hneed
        exact hneed.1
      simp only [slotsOk] at hok ⊢
      exact all_updateFork (fun s => !(s.fork.isSome && s.requested))
        p.forks fid _ hok (by simp [ForkStorage.set_requested, hnone])

/-- The philosopher vector produced by the setup phase of `main` (checked
against `mainSetup` below by reflexivity). -/
def initialPhils : List Philosopher :=
  [{ id := 0, name := "Baruch Spinoza", neighbours := [1, 4],
     forks := [(0, { requested := false, fork := some { id := 0, state := ForkState.Dirty } }),
               (1, { requested := false, fork := some { id := 1, state := ForkState.Dirty } })],
     request_queue := [] },
   { id := 1, name := "Gilles Deleuze", neighbours := [0, 2],
     forks := [(1, { requested := false, fork := none }),
               (2, { requested := false, fork := some { id := 2, state := ForkState.Dirty } })],
     request_queue := [] },
   { id := 2, name := "Karl Marx", neighbours := [1, 3],
     forks := [(2, { requested := false, fork := none }),
               (3, { requested := false, fork := some { id := 3, state := ForkState.Dirty } })],
     request_queue := [] },
   { id := 3, name := "Friedrich Nietzsche", neighbours := [2, 4],
     forks := [(3, { requested := false, fork := none }),
               (4, { requested := false, fork := some { id := 4, state := ForkState.Dirty } })],
     request_queue := [] },
   { id := 4, name := "Michael Foucault", neighbours := [0, 3],
     forks := [(0, { requested := false, fork := none }),
               (4, { requested := false, fork := none })],
     request_queue := [] }]

lemma mainSetup_eq_initialPhils : mainSetup mainNames = some initialPhils := by
  decide

/-- C3: every fork placed into a `Delivery` message by either protocol
operation is clean at the moment it is sent (proved for all states, hence
for all reachable ones), and immediately after the eating step marks the
held forks dirty — before the deferred queue is drained — every slot holds
a dirty fork. -/
theorem c3_clean_transmission (p q : Philosopher) (msg : ForkMessage)
    (out1 : Philosopher × List (Nat × ForkMessage))
    (out2 : Philosopher × List (Nat × ForkMessage) × List String)
    (f f' : Forks)
    (h1 : p.handle_requests msg = some out1)
    (h2 : q.eat = some out2)
    (h3 : dirtyAllForks f = some f') :
    deliveriesClean out1.2 = true ∧ deliveriesClean out2.2.1 = true ∧
    allDirty f' = true :=
  ⟨handle_requests_clean p msg out1 h1, eat_clean q out2 h2,
   dirtyAll_allDirty f f' h3⟩

/-- Witness for C3 at a concrete state. -/
theorem c3_clean_transmission_witness :
    deliveriesClean ((wPhil.handle_requests (ForkMessage.Request 4 0)).getD (wPhil, [])).2 = true ∧
    deliveriesClean ((wPhil.eat).getD (wPhil, [], [])).2.1 = true ∧
    allDirty ((dirtyAllForks wPhil.forks).getD []) = true :=
  c3_clean_transmission wPhil wPhil (ForkMessage.Request 4 0)
    ((wPhil.handle_requests (ForkMessage.Request 4 0)).getD (wPhil, []))
    ((wPhil.eat).getD (wPhil, [], []))
    wPhil.forks ((dirtyAllForks wPhil.forks).getD [])
    (by decide) (by decide) (by decide)

/-- C8: a slot never simultaneously holds a fork and has its request flag
set: the invariant holds in every state produced by setup, and both
protocol operations (message handling, which performs take and delivery
insertion, and the eat step, which performs take and request marking)
preserve it. -/
theorem c8_no_hold_and_request (p q : Philosopher) (msg : ForkMessage)
    (out1 : Philosopher × List (Nat × ForkMessage))
    (out2 : Philosopher × List (Nat × ForkMessage) × List String)
    (phils : List Philosopher) (r : Philosopher)
    (hp : slotsOk p.forks = true) (hq : slotsOk q.forks = true)
    (h1 : p.handle_requests msg = some out1) (h2 : q.eat = some out2)
    (hs : mainSetup mainNames = some phils) (hr : r ∈ phils) :
    slotsOk out1.1.forks = true ∧ slotsOk out2.1.forks = true ∧
    slotsOk r.forks = true := by
  refine ⟨handle_requests_slotsOk p msg out1 hp h1, eat_slotsOk q out2 hq h2, ?_⟩
  rw [mainSetup_eq_initialPhils] at hs
  injection hs with hL
  subst hL
  fin_cases hr <;> decide

/-- Witness for C8 at a concrete state. -/
theorem c8_no_hold_and_request_witness :
    slotsOk ((wPhil.handle_requests (ForkMessage.Request 4 0)).getD (wPhil, [])).1.forks = true ∧
    slotsOk ((wPhil.eat).getD (wPhil, [], [])).1.forks = true ∧
    slotsOk (((mainSetup mainNames).getD []).getD 0 (Philosopher.new 9 "x")).forks = true :=
  c8_no_hold_and_request wPhil wPhil (ForkMessage.Request 4 0)
    ((wPhil.handle_requests (ForkMessage.Request 4 0)).getD (wPhil, []))
    ((wPhil.eat).getD (wPhil, [], []))
    ((mainSetup mainNames).getD [])
    (((mainSetup mainNames).getD []).getD 0 (Philosopher.new 9 "x"))
    (by decide) (by decide) (by decide) (by decide) (by decide) (by decide)

lemma sortedKeys_tail (k0 : Nat) (st0 : ForkStorage) (rest : Forks)
    (h : sortedKeys ((k0, st0) :: rest) = true) : sortedKeys rest = true := by
  cases rest with
  | nil => rfl
  | cons e rest' =>
      obtain ⟨k1, s1⟩ := e
      simp only [sortedKeys, Bool.and_eq_true] at h
      exact h.2

lemma sortedKeys_head_lt (k0 : Nat) (st0 : ForkStorage) (rest : Forks)
    (h : sortedKeys ((k0, st0) :: rest) = true) :
    ∀ e ∈ rest, k0 < e.1 := by
  induction rest generalizing k0 st0 with
  | nil =>
      intro e he
      cases he
  | cons e1 rest' ih =>
      obtain ⟨k1, s1⟩ := e1
      intro e he
      simp only [sortedKeys, Bool.and_eq_true, decide_eq_true_eq] at h
      rcases List.mem_cons.mp he with rfl | hmem
      · exact h.1
      · exact Nat.lt_trans h.1 (ih k1 s1 (by simpa [sortedKeys] using h.2) e hmem)

lemma find?_needs_first :
    ∀ (f : Forks) (fid : Nat) (st : ForkStorage),
      sortedKeys f = true →
      f.find? (fun e => e.2.needs_requesting) = some (fid, st) →
      ∀ e ∈ f, e.1 < fid → e.2.needs_requesting = false := by
  intro f
  induction f with
  | nil =>
      intro fid st _ hf e he
      cases he
  | cons e0 rest ih =>
      obtain ⟨k0, s0⟩ := e0
      intro fid st hs hf e he hlt
      by_cases h0 : s0.needs_requesting = true
      · rw [List.find?_cons_of_pos _ (by simpa using h0)] at hf
        have hk0 : k0 = fid := by
          have := (Option.some.injEq _ _).mp hf
          exact congrArg Prod.fst this
        rcases List.mem_cons.mp he with rfl | hmem
        · exact absurd hlt (by simp [hk0])
        · have hgt := sortedKeys_head_lt k0 s0 rest hs e hmem
          omega
      · rw [List.find?_cons_of_neg _ (by simpa using h0)] at hf
        rcases List.mem_cons.mp he with rfl | hmem
        · simpa using h0
        · exact ih fid st (sortedKeys_tail k0 s0 rest hs) hf e hmem hlt

/-- C2: when a philosopher that can eat finishes eating, the deferred
queue ends empty and the new fork map and sends are exactly the result of
draining the queue, started from the fully dirtied forks, in FIFO order;
a dequeued pair whose slot holds a dirty fork has that fork removed,
cleaned and sent to the requester, and a dequeued pair whose slot holds
no dirty fork is dropped with no send and no retry. -/
theorem c2_end_of_eating (p : Philosopher)
    (out : Philosopher × List (Nat × ForkMessage) × List String)
    (nbrs : List Nat) (f : Forks) (who fid : Nat) (rest : List (Nat × Nat))
    (st : ForkStorage) (fk : Fork)
    (hc : canEat p.forks = true) (h : p.eat = some out)
    (hl : lookupFork f fid = some st) :
    out.1.request_queue = [] ∧
    (∃ f', dirtyAllForks p.forks = some f' ∧
       drainQueue p.neighbours f' p.request_queue = some (out.1.forks, out.2.1)) ∧
    (st.fork = some fk → fk.is_dirty = true → who ∈ nbrs →
       drainQueue nbrs f ((who, fid) :: rest) =
         (drainQueue nbrs (updateFork f fid ({ st with fork := none })) rest).map
           (fun r => (r.1, (who, ForkMessage.Delivery fk.clean) :: r.2))) ∧
    (st.is_dirty = false →
       drainQueue nbrs f ((who, fid) :: rest) = drainQueue nbrs f rest) := by
  obtain ⟨f', r, hd, hr, hout⟩ := eat_canEat_inv p out hc h
  refine ⟨by rw [hout], ⟨f', hd, by rw [hout]; exact hr⟩, ?_, ?_⟩
  · intro hfk hdirty hw
    have hsd : st.is_dirty = true := by
      simp [ForkStorage.is_dirty, hfk, hdirty]
    simp only [drainQueue, hl, hsd, if_true, hfk, hw]
  · intro hsd
    simp only [drainQueue, hl]
    rw [if_neg (by simp [hsd])]

/-- Witness for C2 at a concrete state. -/
theorem c2_end_of_eating_witness :
    ((wPhil.eat).getD (wPhil, [], [])).1.request_queue = [] ∧
    (∃ f', dirtyAllForks wPhil.forks = some f' ∧
       drainQueue wPhil.neighbours f' wPhil.request_queue =
         some (((wPhil.eat).getD (wPhil, [], [])).1.forks,
               ((wPhil.eat).getD (wPhil, [], [])).2.1)) ∧
    (({ requested := false, fork := some { id := 0, state := ForkState.Dirty } } : ForkStorage).fork =
        some { id := 0, state := ForkState.Dirty } →
      Fork.is_dirty { id := 0, state := ForkState.Dirty } = true → 4 ∈ [4] →
      drainQueue [4] wPhil.forks ((4, 0) :: []) =
        (drainQueue [4] (updateFork wPhil.forks 0
            ({ requested := false, fork := none })) []).map
          (fun r => (r.1, (4, ForkMessage.Delivery
            (Fork.clean { id := 0, state := ForkState.Dirty })) :: r.2))) ∧
    (({ requested := false, fork := some { id := 0, state := ForkState.Dirty } } : ForkStorage).is_dirty = false →
      drainQueue [4] wPhil.forks ((4, 0) :: []) = drainQueue [4] wPhil.forks []) :=
  c2_end_of_eating wPhil ((wPhil.eat).getD (wPhil, [], [])) [4] wPhil.forks 4 0 []
    { requested := false, fork := some { id := 0, state := ForkState.Dirty } }
    { id := 0, state := ForkState.Dirty }
    (by decide) (by decide) (by decide)

/-- C6: in an iteration where the philosopher cannot eat, at most one
request is sent: the slots are scanned in ascending key order (the
`BTreeMap` iteration order), the first slot that needs requesting — every
slot with a smaller key does not need requesting — produces exactly one
`Request` message and has its requested flag set, and every other slot is
left untouched; when no slot needs requesting nothing is sent and the
state is unchanged. -/
theorem c6_at_most_one_request (p : Philosopher) (fid : Nat) (st : ForkStorage)
    (hc : canEat p.forks = false) (hs : sortedKeys p.forks = true) :
    (p.forks.find? (fun e => e.2.needs_requesting) = none →
       p.eat = some (p, [], [])) ∧
    (p.forks.find? (fun e => e.2.needs_requesting) = some (fid, st) →
       st.needs_requesting = true ∧
       (∀ e ∈ p.forks, e.1 < fid → e.2.needs_requesting = false) ∧
       (∀ out : Philosopher × List (Nat × ForkMessage) × List String,
          p.eat = some out →
          (∃ pid, out.2.1 = [(pid, ForkMessage.Request p.id fid)]) ∧
          out.1.forks = updateFork p.forks fid st.set_requested ∧
          out.1.request_queue = p.request_queue ∧
          (∀ k, k ≠ fid → lookupFork out.1.forks k = lookupFork p.forks k))) := by
  constructor
  · intro hf
    simp [Philosopher.eat, hc, hf]
  · intro hf
    refine ⟨by simpa using List.find?_some hf,
            find?_needs_first p.forks fid st hs hf, ?_⟩
    intro out hout
    rcases eat_hungry_inv p out hc hout with ⟨hf', _⟩ | ⟨fid', st', pid, hf', _, _, hout'⟩
    · rw [hf] at hf'
      cases hf'
    · rw [hf] at hf'
      have hpair := (Option.some.injEq _ _).mp hf'
      have hfid : fid = fid' := congrArg Prod.fst hpair
      have hst : st = st' := congrArg Prod.snd hpair
      subst hfid
      subst hst
      refine ⟨⟨pid, by rw [hout']⟩, by rw [hout'], by rw [hout'], ?_⟩
      intro k hk
      rw [hout']
      exact lookupFork_updateFork_ne p.forks fid k st.set_requested hk

/-- Witness for C6 at a concrete state (philosopher 4, slot 0 already
requested, slot 4 needing a request). -/
theorem c6_at_most_one_request_witness :
    (wPhil4.forks.find? (fun e => e.2.needs_requesting) = none →
       wPhil4.eat = some (wPhil4, [], [])) ∧
    (wPhil4.forks.find? (fun e => e.2.needs_requesting) =
        some (4, { requested := false, fork := none }) →
       ({ requested := false, fork := none } : ForkStorage).needs_requesting = true ∧
       (∀ e ∈ wPhil4.forks, e.1 < 4 → e.2.needs_requesting = false) ∧
       (∀ out : Philosopher × List (Nat × ForkMessage) × List String,
          wPhil4.eat = some out →
          (∃ pid, out.2.1 = [(pid, ForkMessage.Request wPhil4.id 4)]) ∧
          out.1.forks = updateFork wPhil4.forks 4
            ({ requested := false, fork := none } : ForkStorage).set_requested ∧
          out.1.request_queue = wPhil4.request_queue ∧
          (∀ k, k ≠ 4 → lookupFork out.1.forks k = lookupFork wPhil4.forks k))) :=
  c6_at_most_one_request wPhil4 4 { requested := false, fork := none }
    (by decide) (by decide)

/-- C7 counterexample: at a concrete state the line emitted on the
Hungry→Eating transition is the full `println!` line — id, name, text and
fork-map debug dump — and not exactly the string `"<name> is eating."`
(likewise for the done-eating line). -/
theorem c7_counterexample :
    (wPhil.eat).map (fun out => out.2.2) =
      some ["0 Baruch Spinoza is eating. \x7b0: Fork 0 dirty not-req, 1: Fork 1 clean not-req\x7d",
            "0 Baruch Spinoza is done eating. \x7b0: Fork 0 dirty not-req, 1: Fork 1 dirty not-req\x7d"] ∧
    "0 Baruch Spinoza is eating. \x7b0: Fork 0 dirty not-req, 1: Fork 1 clean not-req\x7d" ≠
      "Baruch Spinoza is eating." ∧
    "0 Baruch Spinoza is done eating. \x7b0: Fork 0 dirty not-req, 1: Fork 1 dirty not-req\x7d" ≠
      "Baruch Spinoza is done eating." := by
  refine ⟨by decide, by decide, by decide⟩

/-- C7 (amended): on each Hungry→Eating transition the program emits
exactly one line, `"<id> <name> is eating. <forks-debug>"`, which contains
`"<name> is eating."` as a substring, and on each Eating→Hungry transition
exactly one line `"<id> <name> is done eating. <forks-debug>"` containing
`"<name> is done eating."`. -/
theorem c7_event_lines (p : Philosopher)
    (out : Philosopher × List (Nat × ForkMessage) × List String)
    (hc : canEat p.forks = true) (h : p.eat = some out) :
    ∃ f', dirtyAllForks p.forks = some f' ∧
      out.2.2 = [toString p.id ++ " " ++ p.name ++ " is eating. " ++ debugForks p.forks,
                 toString p.id ++ " " ++ p.name ++ " is done eating. " ++ debugForks f'] ∧
      (∃ a b c d, out.2.2 = [a ++ (p.name ++ " is eating.") ++ b,
                             c ++ (p.name ++ " is done eating.") ++ d]) := by
  obtain ⟨f', r, hd, _, hout⟩ := eat_canEat_inv p out hc h
  refine ⟨f', hd, by rw [hout], ⟨toString p.id ++ " ", " " ++ debugForks p.forks,
    toString p.id ++ " ", " " ++ debugForks f', ?_⟩⟩
  rw [hout]
  have h1 : " is eating. " = " is eating." ++ " " := by decide
  have h2 : " is done eating. " = " is done eating." ++ " " := by decide
  simp only [List.cons.injEq, and_true]
  constructor
  · rw [h1]
    simp only [String.append_assoc]
  · rw [h2]
    simp only [String.append_assoc]

/-- Witness for the amended C7 at a concrete state. -/
theorem c7_event_lines_witness :
    ∃ f', dirtyAllForks wPhil.forks = some f' ∧
      ((wPhil.eat).getD (wPhil, [], [])).2.2 =
        [toString wPhil.id ++ " " ++ wPhil.name ++ " is eating. " ++ debugForks wPhil.forks,
         toString wPhil.id ++ " " ++ wPhil.name ++ " is done eating. " ++ debugForks f'] ∧
      (∃ a b c d, ((wPhil.eat).getD (wPhil, [], [])).2.2 =
        [a ++ (wPhil.name ++ " is eating.") ++ b,
         c ++ (wPhil.name ++ " is done eating.") ++ d]) :=
  c7_event_lines wPhil ((wPhil.eat).getD (wPhil, [], [])) (by decide) (by decide)

/-- Number of slots across the whole ring holding the fork with id `t`. -/
def slotsHoldingToken (phils : List Philosopher) (t : Nat) : Nat :=
  (phils.map (fun p => (p.forks.filter (fun e =>
    match e.2.fork with
    | some fk => fk.id == t
    | none => false)).length)).sum

/-- Philosopher at position `idx` holds a dirty fork with id `t`. -/
def tokenDirtyAt (phils : List Philosopher) (idx t : Nat) : Bool :=
  (phils.getD idx (Philosopher.new 0 "")).forks.any (fun e =>
    match e.2.fork with
    | some fk => fk.id == t && fk.state == ForkState.Dirty
    | none => false)

/-- C4: after the setup phase of `main` (ring of N = 5), for each edge
(i, i+1 mod 5) exactly one fork — the fork with id (i+1) mod 5 — exists
across all slots; it is dirty and resides in a slot of the lower-numbered
endpoint min(i, (i+1) mod 5); in particular philosopher 0 holds both the
edge token shared with philosopher 4 (fork 0) and the edge-(0,1) token
(fork 1), and every philosopher owns exactly two slots. -/
theorem c4_setup_token_assignment :
    mainSetup mainNames = some initialPhils ∧
    initialPhils.length = 5 ∧
    (∀ p ∈ initialPhils, p.forks.length = 2) ∧
    (∀ i < 5, slotsHoldingToken initialPhils ((i + 1) % 5) = 1 ∧
       tokenDirtyAt initialPhils (min i ((i + 1) % 5)) ((i + 1) % 5) = true) ∧
    tokenDirtyAt initialPhils 0 0 = true ∧
    tokenDirtyAt initialPhils 0 1 = true := by
  refine ⟨mainSetup_eq_initialPhils, by decide, by decide, ?_, by decide, by decide⟩
  decide

/-- C5: the `assert!(self.forks.len() <= 2)` in `setup_fork` is checked
before the insertion, so assigning a third distinct slot to an agent that
already owns two slots does not abort: the call succeeds and leaves the
agent with three slots.  Only a fourth assignment trips the assertion. -/
theorem c5_third_fork_accepted :
    (Philosopher.setup_fork
        { id := 0, name := "A", neighbours := [],
          forks := [(0, ForkStorage.new none), (1, ForkStorage.new none)],
          request_queue := [] }
        2 (some (Fork.new_dirty 2))).map (fun p => p.forks.length) = some 3 ∧
    Philosopher.setup_fork
        { id := 0, name := "A", neighbours := [],
          forks := [(0, ForkStorage.new none), (1, ForkStorage.new none),
                    (2, ForkStorage.new (some (Fork.new_dirty 2)))],
          request_queue := [] }
        3 (some (Fork.new_dirty 3)) = none := by
  refine ⟨by decide, by decide⟩
